import Mathlib

/-! Verification of the rtic-syntax semantic-analysis engine.

This file embeds the application-model validator of
`src/vendor/rtic-syntax/src/check.rs` (function `check::app`) and the
analysis passes the design document describes (location resolution,
late-resource scheduling, initialization barriers, cross-core send
bounds and timer queues).  The validator is translated line by line
from `check.rs`; the accessors of the application model and the
analysis passes, whose implementation files are not part of the
repository snapshot, are modelled from the specification's words and
carry a doc comment saying so. -/

namespace Rtic

/-- Resource access mode, as rtic-syntax's `Access`: `exclusive` is `x`
(a `&mut-` lock), `shared` is `&x` (a by-reference borrow). -/
inductive Access where
  | exclusive : Access
  | shared : Access
deriving DecidableEq

/-- `Access::is_exclusive`. -/
def Access.is_exclusive : Access → Bool
  | .exclusive => true
  | .shared => false

/-- `Access::is_shared`. -/
def Access.is_shared : Access → Bool
  | .exclusive => false
  | .shared => true

/-- A declared resource: its element type, and whether it carries the
`#[shared]` attribute ("declared globally shared"). -/
structure Res where
  ty : String
  shared : Bool := false
deriving DecidableEq

/-- An `#[init]` unit: its resource-access list, its explicit
`late = [...]` claim list, whether it returns `init::LateResources`,
and its spawn/schedule targets. -/
structure Init where
  resources : List (String × Access) := []
  late : List String := []
  returns_late_resources : Bool := false
  spawns : List String := []
  schedules : List String := []
deriving DecidableEq

/-- An `#[idle]` unit. -/
structure Idle where
  resources : List (String × Access) := []
  spawns : List String := []
  schedules : List String := []
deriving DecidableEq

/-- A hardware task (`#[task(binds = ...)]`). -/
structure HardwareTask where
  core : Nat
  priority : Nat := 1
  binds : String
  resources : List (String × Access) := []
  spawns : List String := []
  schedules : List String := []
deriving DecidableEq

/-- A software task (`#[task]`): `inputs` are its message payload types. -/
structure SoftwareTask where
  core : Nat
  priority : Nat := 1
  resources : List (String × Access) := []
  spawns : List String := []
  schedules : List String := []
  inputs : List String := []
deriving DecidableEq

/-- The application model (`ast::App`).  Maps are embedded as ordered
association lists: `inits` and `idles` are keyed by core (the Rust side
is a `BTreeMap`, iterated in ascending core order), tasks are keyed by
name, and `resources` / `late_resources` keep declaration order. -/
structure App where
  cores : Nat := 1
  resources : List (String × Res) := []
  late_resources : List (String × Res) := []
  inits : List (Nat × Init) := []
  idles : List (Nat × Idle) := []
  hardware_tasks : List (String × HardwareTask) := []
  software_tasks : List (String × SoftwareTask) := []
  extern_interrupts : List (Nat × List String) := []
deriving DecidableEq

/-- One element of `App::resource_accesses()`: accessing core, the
accessor's priority (`none` for an init unit, `some 0` for idle,
`some p` for a task of priority `p`), resource name, access mode. -/
structure RAccess where
  core : Nat
  priority : Option Nat
  name : String
  access : Access
deriving DecidableEq

/-- One spawn or schedule call: calling core, caller's priority
(`none` for an init unit), and the target task's name. -/
structure Caller where
  core : Nat
  priority : Option Nat
  task : String
deriving DecidableEq

/-- Association-list lookup, the embedding's stand-in for the map
lookups (`HashMap::get`, `BTreeMap::get`, `IndexMap::get`) of the code. -/
def alookup {α β : Type} [DecidableEq α] : List (α × β) → α → Option β
  | [], _ => none
  | (k, v) :: t, n => if k = n then some v else alookup t n

/-- Modelled from the spec: `App::resource_accesses()` (the accessors
module of the vendored rtic-syntax is not under src/).  Every resource
access of every unit, in the order init units, idle units, hardware
tasks, software tasks; init accesses carry no priority, idle runs at
priority 0, tasks at their declared priority (spec section 3; check.rs
relies on init accesses being the ones with `priority.is_none()`). -/
def App.resource_accesses (app : App) : List RAccess :=
  (app.inits.flatMap fun ci => ci.2.resources.map fun na => ⟨ci.1, none, na.1, na.2⟩) ++
  (app.idles.flatMap fun ci => ci.2.resources.map fun na => ⟨ci.1, some 0, na.1, na.2⟩) ++
  (app.hardware_tasks.flatMap fun nt => nt.2.resources.map fun na => ⟨nt.2.core, some nt.2.priority, na.1, na.2⟩) ++
  (app.software_tasks.flatMap fun nt => nt.2.resources.map fun na => ⟨nt.2.core, some nt.2.priority, na.1, na.2⟩)

/-- The declared late-resource names, in declaration order. -/
def App.lateNames (app : App) : List String :=
  app.late_resources.map Prod.fst

/-- `App::resource(name)`: the declaration of `name` among early and
late resources. -/
def App.resource? (app : App) (n : String) : Option Res :=
  alookup (app.resources ++ app.late_resources) n

/-- Modelled from the spec: `App::task_references()` — every
spawn/schedule target named anywhere in the application. -/
def App.task_references (app : App) : List String :=
  (app.inits.flatMap fun ci => ci.2.spawns ++ ci.2.schedules) ++
  (app.idles.flatMap fun ci => ci.2.spawns ++ ci.2.schedules) ++
  (app.hardware_tasks.flatMap fun nt => nt.2.spawns ++ nt.2.schedules) ++
  (app.software_tasks.flatMap fun nt => nt.2.spawns ++ nt.2.schedules)

/-- Modelled from the spec: `App::schedule_calls()` — each `schedule`
call with the calling unit's core and priority. -/
def App.schedule_calls (app : App) : List Caller :=
  (app.inits.flatMap fun ci => ci.2.schedules.map fun t => ⟨ci.1, none, t⟩) ++
  (app.idles.flatMap fun ci => ci.2.schedules.map fun t => ⟨ci.1, some 0, t⟩) ++
  (app.hardware_tasks.flatMap fun nt => nt.2.schedules.map fun t => ⟨nt.2.core, some nt.2.priority, t⟩) ++
  (app.software_tasks.flatMap fun nt => nt.2.schedules.map fun t => ⟨nt.2.core, some nt.2.priority, t⟩)

/-- Modelled from the spec: `App::spawn_calls()` — each `spawn` call
with the calling unit's core and priority. -/
def App.spawn_calls (app : App) : List Caller :=
  (app.inits.flatMap fun ci => ci.2.spawns.map fun t => ⟨ci.1, none, t⟩) ++
  (app.idles.flatMap fun ci => ci.2.spawns.map fun t => ⟨ci.1, some 0, t⟩) ++
  (app.hardware_tasks.flatMap fun nt => nt.2.spawns.map fun t => ⟨nt.2.core, some nt.2.priority, t⟩) ++
  (app.software_tasks.flatMap fun nt => nt.2.spawns.map fun t => ⟨nt.2.core, some nt.2.priority, t⟩)

/-- The validator's diagnostics, one constructor per `return Err(...)`
site of `check.rs` (spec section 7's error taxonomy). -/
inductive Diag where
  | undeclaredResource (name : String)
  | crossCoreExclusiveConflict (name : String)
  | mixedAccessMode (name : String)
  | lateResourceInInit (name : String)
  | initSharedAccess (name : String)
  | unexpectedLateResourceReturn (core : Nat)
  | missingLateResourceInit
  | missingInit
  | noMoreLateResources (core : Nat)
  | notALateResource (name : String)
  | lateResourceDoubleClaim (name : String) (core : Nat)
  | ambiguousRemainderClaim (core other : Nat)
  | unclaimedLateResource (name : String)
  | reservedInterruptCollision (name : String)
  | spawnOfHardwareTask (name : String)
  | undeclaredTask (name : String)
deriving DecidableEq

/-- check.rs lines 11-32: declared-resource check and the single-owner
exclusive check, folding the `owners` map over `resource_accesses()`. -/
def check1 (app : App) : List RAccess → List (String × Nat) → Except Diag Unit
  | [], _ => .ok ()
  | x :: rest, owners =>
    if (app.resource? x.name).isNone then .error (.undeclaredResource x.name)
    else if x.access.is_exclusive then
      match alookup owners x.name with
      | some owner =>
        if x.core ≠ owner then .error (.crossCoreExclusiveConflict x.name)
        else check1 app rest owners
      | none => check1 app rest ((x.name, x.core) :: owners)
    else check1 app rest owners

/-- check.rs lines 38-47: the set of resources exclusively accessed by
a unit that has a priority (that is, by anything but an init unit). -/
def exclusive_accesses (app : App) : List String :=
  app.resource_accesses.filterMap fun x =>
    if x.priority.isSome && x.access.is_exclusive then some x.name else none

/-- check.rs lines 48-55: the scan rejecting a shared access to a
resource that is in `exclusive_accesses`. -/
def check2Loop (excl : List String) : List RAccess → Except Diag Unit
  | [] => .ok ()
  | x :: rest =>
    if x.access.is_shared && decide (x.name ∈ excl) then .error (.mixedAccessMode x.name)
    else check2Loop excl rest

/-- check.rs lines 34-55: no resource may see both exclusive (from a
prioritized unit) and shared access. -/
def check2 (app : App) : Except Diag Unit :=
  check2Loop (exclusive_accesses app) app.resource_accesses

/-- check.rs lines 57-73: init units may not be handed late resources
and may not take shared (`&x`) access. -/
def check3Loop (app : App) : List (String × Access) → Except Diag Unit
  | [] => .ok ()
  | na :: rest =>
    if decide (na.1 ∈ app.lateNames) then .error (.lateResourceInInit na.1)
    else if na.2.is_shared then .error (.initSharedAccess na.1)
    else check3Loop app rest

/-- check.rs lines 57-73 over every init unit's access list. -/
def check3 (app : App) : Except Diag Unit :=
  check3Loop app (app.inits.flatMap fun ci => ci.2.resources)

/-- check.rs lines 78-86: when no late resources exist, no init unit
may return `LateResources`. -/
def check4Empty : List (Nat × Init) → Except Diag Unit
  | [] => .ok ()
  | ci :: rest =>
    if ci.2.returns_late_resources then .error (.unexpectedLateResourceReturn ci.1)
    else check4Empty rest

/-- check.rs lines 88-102: in a single-core application the sole init
unit (at core 0) must exist and return `LateResources`. -/
def check4Single (app : App) : Except Diag Unit :=
  match alookup app.inits 0 with
  | some i =>
    if !i.returns_late_resources then .error .missingLateResourceInit else .ok ()
  | none => .error .missingInit

/-- check.rs lines 121-139: the inner loop over one init unit's
explicit `late` list, checking each claim and erasing it from the
still-unclaimed set. -/
def claimLoop (app : App) (core : Nat) :
    List String → List (String × Nat) → List String →
    Except Diag (List (String × Nat) × List String)
  | [], initialized, set => .ok (initialized, set)
  | res :: more, initialized, set =>
    if ¬ res ∈ app.lateNames then .error (.notALateResource res)
    else
      match alookup initialized res with
      | some other => .error (.lateResourceDoubleClaim res other)
      | none => claimLoop app core more ((res, core) :: initialized) (set.erase res)

/-- check.rs lines 104-152: the multi-core loop over the init units,
tracking the optional remainder-claiming core (`rest`), the map of
explicitly claimed resources (`initialized`) and the still-unclaimed
set. -/
def lateLoop (app : App) :
    List (Nat × Init) → Option Nat → List (String × Nat) → List String →
    Except Diag (Option Nat × List (String × Nat) × List String)
  | [], rest, initialized, set => .ok (rest, initialized, set)
  | ci :: more, rest, initialized, set =>
    if ¬ ci.2.returns_late_resources then lateLoop app more rest initialized set
    else if set.isEmpty then .error (.noMoreLateResources ci.1)
    else if ¬ ci.2.late.isEmpty then
      match claimLoop app ci.1 ci.2.late initialized set with
      | .error e => .error e
      | .ok iset => lateLoop app more rest iset.1 iset.2
    else
      match rest with
      | some r => .error (.ambiguousRemainderClaim r ci.1)
      | none => lateLoop app more (some ci.1) initialized set

/-- check.rs lines 103-162: run the multi-core loop, then reject when a
late resource is left over and no core claimed the remainder. -/
def check4Multi (app : App) : Except Diag Unit :=
  match lateLoop app app.inits none [] app.lateNames with
  | .error e => .error e
  | .ok out =>
    match out.2.2.head? with
    | some res =>
      if out.1.isNone then .error (.unclaimedLateResource res) else .ok ()
    | none => .ok ()

/-- check.rs lines 75-163: late-resource coverage. -/
def check4 (app : App) : Except Diag Unit :=
  if app.lateNames.isEmpty then check4Empty app.inits
  else if app.cores = 1 then check4Single app
  else check4Multi app

/-- check.rs lines 165-177: a hardware task may not bind an interrupt
reserved as an extern dispatch vector on its core. -/
def check5Loop (app : App) : List (String × HardwareTask) → Except Diag Unit
  | [] => .ok ()
  | nt :: rest =>
    match alookup app.extern_interrupts nt.2.core with
    | some ints =>
      if decide (nt.2.binds ∈ ints) then .error (.reservedInterruptCollision nt.2.binds)
      else check5Loop app rest
    | none => check5Loop app rest

/-- check.rs lines 165-177 over every hardware task. -/
def check5 (app : App) : Except Diag Unit :=
  check5Loop app app.hardware_tasks

/-- check.rs lines 179-192: every spawn/schedule target must be a
declared software task. -/
def check6Loop (app : App) : List String → Except Diag Unit
  | [] => .ok ()
  | t :: rest =>
    if (alookup app.hardware_tasks t).isSome then .error (.spawnOfHardwareTask t)
    else if (alookup app.software_tasks t).isNone then .error (.undeclaredTask t)
    else check6Loop app rest

/-- check.rs lines 179-192 over `task_references()`. -/
def check6 (app : App) : Except Diag Unit :=
  check6Loop app app.task_references

/-- Sequencing of two checks, as Rust's `?` early return: the first
error wins. -/
def exceptSeq (a b : Except Diag Unit) : Except Diag Unit :=
  match a with
  | .error e => .error e
  | .ok _ => b

/-- check.rs `check::app`: the whole validator, raising the first
violation in source order. -/
def check (app : App) : Except Diag Unit :=
  exceptSeq (check1 app app.resource_accesses [])
    (exceptSeq (check2 app)
      (exceptSeq (check3 app)
        (exceptSeq (check4 app)
          (exceptSeq (check5 app) (check6 app)))))

/-- Modelled from the spec (section 4.3, the analyzer is not under
src/): the explicit late-resource claims of init units that return
`LateResources`. -/
def explicitClaims (app : App) : List String :=
  app.inits.flatMap fun ci => if ci.2.returns_late_resources then ci.2.late else []

/-- Modelled from the spec (section 4.3): `schedule_late` — in a
single-core application the sole init unit produces every late
resource; in a multi-core application a core receives the late
resources its init unit explicitly claimed, and a core whose init unit
returns `LateResources` with an empty explicit list receives the
remainder: every late resource not explicitly claimed by another core. -/
def schedule_late (app : App) (core : Nat) : List String :=
  if app.cores = 1 then (if core = 0 then app.lateNames else [])
  else
    match alookup app.inits core with
    | some i =>
      if i.returns_late_resources then
        if ¬ i.late.isEmpty then i.late
        else app.lateNames.filter fun r => ¬ r ∈ explicitClaims app
      else []
    | none => []

/-- Modelled from the spec (sections 4.2-4.4): the core whose init unit
produces late resource `r` according to the late-resource schedule. -/
def producer (app : App) (r : String) : Option Nat :=
  (List.range app.cores).find? fun c => decide (r ∈ schedule_late app c)

/-- The distinct cores from which `r` is accessed by a prioritized unit
(anything but init, which precedes concurrency — spec section 4.2). -/
def accessorCores (app : App) (r : String) : List Nat :=
  (app.resource_accesses.filterMap fun x =>
    if x.name = r ∧ x.priority.isSome then some x.core else none).dedup

/-- The distinct cores from which `r` is accessed by an init unit. -/
def initAccessorCores (app : App) (r : String) : List Nat :=
  (app.resource_accesses.filterMap fun x =>
    if x.name = r ∧ x.priority.isNone then some x.core else none).dedup

/-- A resource's resolved location (spec section 3): owned by one core
(with the cross-initialization flag), or shared between cores. -/
inductive Location where
  | Owned (core : Nat) (cross_initialized : Bool)
  | Shared (cores : List Nat)
deriving DecidableEq

/-- Modelled from the spec (section 4.2): whether `r`, owned by core
`c`, is produced by a different core's init unit. -/
def crossInit (app : App) (r : String) (c : Nat) : Bool :=
  decide (r ∈ app.lateNames) &&
    match producer app r with
    | some p => decide (p ≠ c)
    | none => false

/-- Modelled from the spec (section 4.2): one resource's location — a
resource declared `#[shared]` is always `Shared` with an empty core
set (the documented override, confirmed by the repository's `shared`
test); otherwise one accessing core gives `Owned`, several give
`Shared`, and a resource accessed by no unit at all is dropped. -/
def resolveLocation (app : App) (r : String) (res : Res) : Option Location :=
  if res.shared then some (.Shared [])
  else
    match accessorCores app r with
    | [] =>
      match initAccessorCores app r with
      | [] => none
      | c :: _ => some (.Owned c (crossInit app r c))
    | [c] => some (.Owned c (crossInit app r c))
    | cs => some (.Shared cs)

/-- Modelled from the spec (section 4.2): the ordered locations map,
over the declared resources in declaration order. -/
def locations (app : App) : List (String × Location) :=
  (app.resources ++ app.late_resources).filterMap fun nr =>
    (resolveLocation app nr.1 nr.2).map fun l => (nr.1, l)

/-- Modelled from the spec (section 4.4): core `c`'s initialization
barriers — for each resource owned by `c` with the
cross-initialization flag, the core producing it. -/
def initialization_barriers (app : App) (c : Nat) : List Nat :=
  ((locations app).filterMap fun rl =>
    match rl.2 with
    | .Owned c' true => if c' = c then producer app rl.1 else none
    | _ => none).dedup

/-- Every spawn and schedule call of the application. -/
def sendCandidates (app : App) : List Caller :=
  app.spawn_calls ++ app.schedule_calls

/-- Modelled from the spec (section 4.5): the payload types of software
tasks on `c` spawned or scheduled from a different core. -/
def send_types (app : App) (c : Nat) : List String :=
  (sendCandidates app).flatMap fun x =>
    match alookup app.software_tasks x.task with
    | some t => if t.core = c ∧ x.core ≠ c then t.inputs else []
    | none => []

/-- A per-core timer queue: the priority its dispatch handler runs at. -/
structure TimerQueue where
  priority : Nat
deriving DecidableEq

/-- The core a software task lives on, by task name. -/
def targetCore (app : App) (t : String) : Option Nat :=
  (alookup app.software_tasks t).map fun task => task.core

/-- The priorities of the prioritized units on core `c` whose schedule
calls target a task on another core (the units spec section 4.6's
priority formula ranges over). -/
def outboundPriorities (app : App) (c : Nat) : List Nat :=
  app.schedule_calls.filterMap fun x =>
    match x.priority, targetCore app x.task with
    | some q, some tc => if x.core = c ∧ tc ≠ c then some q else none
    | _, _ => none

/-- One contribution of a schedule call to its scheduling core's
timer-queue handler priority: a same-core schedulee forces the handler
strictly above the schedulee's priority (this is what the repository's
`timer_queue` test observes: `bar` at priority 2 gives priority 3), and
a cross-core schedule forces it strictly above the scheduling unit's
own priority (spec section 4.6's formula). -/
def tqContributions (app : App) (c : Nat) : List Nat :=
  app.schedule_calls.filterMap fun x =>
    if x.core = c then
      match alookup app.software_tasks x.task with
      | some t =>
        if t.core = c then some (t.priority + 1)
        else
          match x.priority with
          | some q => some (q + 1)
          | none => none
      | none => none
    else none

/-- Modelled from the spec (section 4.6) as corrected by the
repository's `timer_queue` test (the analyzer is not under src/): the
timer queue lives on the scheduling core — the test asserts
`timer_queues[0].priority == 3` although nothing schedules into
core 0 — so a core holds an entry exactly when a unit on it schedules
a declared software task, and the handler priority exceeds every
same-core schedulee and, per the spec's formula, every unit of the
core that schedules cross-core. -/
def timer_queues (app : App) (c : Nat) : Option TimerQueue :=
  if app.schedule_calls.any fun x =>
      decide (x.core = c) && (alookup app.software_tasks x.task).isSome then
    some ⟨(tqContributions app c).foldr max 0⟩
  else none

/-- Every resource access of the application names a declared resource
(the model invariant of spec section 3 that check.rs re-checks first). -/
abbrev declaredAll (app : App) : Prop :=
  ∀ x ∈ app.resource_accesses, (app.resource? x.name).isSome = true

/-- No resource is exclusively accessed from two distinct cores. -/
abbrev exclusiveConsistent (app : App) : Prop :=
  ∀ x ∈ app.resource_accesses, ∀ y ∈ app.resource_accesses,
    x.name = y.name → x.access = Access.exclusive → y.access = Access.exclusive →
      x.core = y.core

/-- Two cores; core 0's init unit takes exclusive access to `r`, a task
on core 1 also takes exclusive access to `r`. -/
def app10 : App :=
  { cores := 2
    resources := [("r", { ty := "i32" })]
    inits := [(0, { resources := [("r", .exclusive)] })]
    software_tasks := [("t", { core := 1, priority := 1, resources := [("r", .exclusive)] })] }

/-- One core; a prioritized task locks `x` exclusively while another
takes a by-reference borrow of it. -/
def app2w : App :=
  { cores := 1
    resources := [("x", { ty := "i32" })]
    software_tasks :=
      [("a", { core := 0, priority := 1, resources := [("x", .exclusive)] }),
       ("b", { core := 0, priority := 1, resources := [("x", .shared)] })] }

/-- The `late_resources_split` test: two late resources, core 0's init
claims `x` explicitly, core 1's init claims the remainder. -/
def app3 : App :=
  { cores := 2
    late_resources := [("x", { ty := "i32" }), ("y", { ty := "i32" })]
    inits :=
      [(0, { late := ["x"], returns_late_resources := true }),
       (1, { returns_late_resources := true })] }

/-- The `timer_queue` scenario as claim C4 words it: `foo` (priority 1)
on core 0 schedules `baz` on core 1, and `qux`, a core-0 task at
priority 2, also schedules cross-core. -/
def app4 : App :=
  { cores := 2
    software_tasks :=
      [("foo", { core := 0, priority := 1, schedules := ["baz"] }),
       ("qux", { core := 0, priority := 2, schedules := ["baz"] }),
       ("baz", { core := 1, priority := 1 })] }

/-- The repository's `timer_queue` test verbatim: `foo` (core 0,
priority 1) schedules `bar` (core 0, priority 2) and `baz` (core 1);
the test asserts `timer_queues[0].priority == 3`. -/
def app4t : App :=
  { cores := 2
    software_tasks :=
      [("foo", { core := 0, priority := 1, schedules := ["bar", "baz"] }),
       ("bar", { core := 0, priority := 2 }),
       ("baz", { core := 1, priority := 1 })] }

/-- The `initialization_barrier` test: core 0's init produces the late
resource `x`, consumed by core 1's idle unit. -/
def app5 : App :=
  { cores := 2
    late_resources := [("x", { ty := "i32" })]
    inits := [(0, { returns_late_resources := true })]
    idles := [(1, { resources := [("x", .exclusive)] })] }

/-- The `send_spawn` test: `foo` on core 0 spawns `bar` on core 1,
whose payload type is `X`. -/
def app6w : App :=
  { cores := 2
    software_tasks :=
      [("foo", { core := 0, priority := 1, spawns := ["bar"] }),
       ("bar", { core := 1, priority := 1, inputs := ["X"] })] }

/-- The `shared` test: `x` is declared `#[shared]` and accessed by no
unit at all. -/
def app8 : App :=
  { cores := 2
    resources := [("x", { ty := "u32", shared := true })]
    inits := [(0, {})] }

/-- A family of two-core applications: core 0's init explicitly claims
the single late resource `x`, and a second init unit (at core `c`)
returns `LateResources` with an empty explicit list after nothing is
left to claim. -/
def app9c (c : Nat) : App :=
  { cores := 2
    late_resources := [("x", { ty := "i32" })]
    inits :=
      [(0, { late := ["x"], returns_late_resources := true }),
       (c, { returns_late_resources := true })] }

/-- The concrete instance of `app9c` at core 1. -/
def app9 : App := app9c 1

theorem alookup_mem {α β : Type} [DecidableEq α] {l : List (α × β)} {k : α} {v : β}
    (h : alookup l k = some v) : (k, v) ∈ l := by
  induction l with
  | nil => simp [alookup] at h
  | cons p t ih =>
    obtain ⟨a, b⟩ := p
    by_cases hk : a = k
    · subst hk
      simp [alookup] at h
      simp [h]
    · simp [alookup, hk] at h
      exact List.mem_cons_of_mem _ (ih h)

theorem alookup_of_mem {α β : Type} [DecidableEq α] {l : List (α × β)} {k : α} {v : β}
    (hnd : (l.map Prod.fst).Nodup) (h : (k, v) ∈ l) : alookup l k = some v := by
  induction l with
  | nil => simp at h
  | cons p t ih =>
    obtain ⟨a, b⟩ := p
    simp only [List.map_cons, List.nodup_cons] at hnd
    rcases List.mem_cons.mp h with h1 | h1
    · obtain ⟨h1, h2⟩ := Prod.mk.injEq .. ▸ congrArg id h1 |> fun e => Prod.mk.inj h1.symm
      · simp_all [alookup]
    · have hne : a ≠ k := by
        rintro rfl
        exact hnd.1 (List.mem_map.mpr ⟨(a, v), h1, rfl⟩)
      simp [alookup, hne]
      exact ih hnd.2 h1

theorem alookup_isNone_iff {α β : Type} [DecidableEq α] {l : List (α × β)} {k : α} :
    alookup l k = none ↔ ∀ v, (k, v) ∉ l := by
  constructor
  · intro h v hv
    induction l with
    | nil => simp at hv
    | cons p t ih =>
      obtain ⟨a, b⟩ := p
      by_cases hk : a = k
      · subst hk; simp [alookup] at h
      · simp [alookup, hk] at h
        rcases List.mem_cons.mp hv with h1 | h1
        · exact hk (congrArg Prod.fst h1).symm
        · exact ih h h1
  · intro h
    cases he : alookup l k with
    | none => rfl
    | some v => exact absurd (alookup_mem he) (h v)

theorem exceptSeq_ok_iff {a b : Except Diag Unit} :
    exceptSeq a b = .ok () ↔ a = .ok () ∧ b = .ok () := by
  cases a with
  | error e => simp [exceptSeq]
  | ok u => cases u; simp [exceptSeq]

theorem exceptSeq_error_iff {a b : Except Diag Unit} {e : Diag} :
    exceptSeq a b = .error e ↔ a = .error e ∨ (a = .ok () ∧ b = .error e) := by
  cases a with
  | error e' => simp [exceptSeq]
  | ok u => cases u; simp [exceptSeq]

/-- `a.is_exclusive` names the `exclusive` constructor. -/
theorem is_exclusive_iff {a : Access} : a.is_exclusive = true ↔ a = .exclusive := by
  cases a <;> simp [Access.is_exclusive]

/-- `a.is_shared` names the `shared` constructor. -/
theorem is_shared_iff {a : Access} : a.is_shared = true ↔ a = .shared := by
  cases a <;> simp [Access.is_shared]

/-- The owners loop only raises an undeclared resource (for one of the
accesses it scanned) or a cross-core exclusive conflict. -/
theorem check1_error_shape (app : App) :
    ∀ (l : List RAccess) (owners : List (String × Nat)) (e : Diag),
      check1 app l owners = .error e →
      (∃ x ∈ l, e = .undeclaredResource x.name ∧ (app.resource? x.name).isNone = true) ∨
        ∃ n, e = .crossCoreExclusiveConflict n := by
  intro l
  induction l with
  | nil => intro owners e h; simp [check1] at h
  | cons z rest ih =>
    intro owners e h
    simp only [check1] at h
    by_cases hd : (app.resource? z.name).isNone = true
    · rw [if_pos hd] at h
      cases h
      exact .inl ⟨z, List.mem_cons_self z rest, rfl, hd⟩
    · rw [if_neg hd] at h
      by_cases hze : z.access.is_exclusive = true
      · rw [if_pos hze] at h
        cases hlk : alookup owners z.name with
        | some owner =>
          rw [hlk] at h
          have h' :
              (if z.core ≠ owner then
                  Except.error (Diag.crossCoreExclusiveConflict z.name)
                else check1 app rest owners) = .error e := h
          by_cases hne : z.core ≠ owner
          · rw [if_pos hne] at h'
            cases h'
            exact .inr ⟨z.name, rfl⟩
          · rw [if_neg hne] at h'
            rcases ih owners e h' with ⟨y, hy, he⟩ | he
            · exact .inl ⟨y, List.mem_cons_of_mem _ hy, he⟩
            · exact .inr he
        | none =>
          rw [hlk] at h
          have h' : check1 app rest ((z.name, z.core) :: owners) = .error e := h
          rcases ih _ e h' with ⟨y, hy, he⟩ | he
          · exact .inl ⟨y, List.mem_cons_of_mem _ hy, he⟩
          · exact .inr he
      · rw [if_neg hze] at h
        rcases ih owners e h with ⟨y, hy, he⟩ | he
        · exact .inl ⟨y, List.mem_cons_of_mem _ hy, he⟩
        · exact .inr he

/-- If the owners loop succeeds, every exclusive access in its input is
on the core the incoming owners map assigns to its resource. -/
theorem check1_ok_compat (app : App) :
    ∀ (l : List RAccess) (owners : List (String × Nat)),
      check1 app l owners = .ok () →
      ∀ x ∈ l, x.access = Access.exclusive →
        ∀ co, alookup owners x.name = some co → x.core = co := by
  intro l
  induction l with
  | nil => intro owners _ x hx; simp at hx
  | cons z rest ih =>
    intro owners h x hx hxe co hco
    simp only [check1] at h
    by_cases hd : (app.resource? z.name).isNone = true
    · rw [if_pos hd] at h; exact absurd h (by simp)
    · rw [if_neg hd] at h
      by_cases hze : z.access.is_exclusive = true
      · rw [if_pos hze] at h
        cases hlk : alookup owners z.name with
        | some owner =>
          rw [hlk] at h
          have h' :
              (if z.core ≠ owner then
                  Except.error (Diag.crossCoreExclusiveConflict z.name)
                else check1 app rest owners) = .ok () := h
          by_cases hne : z.core ≠ owner
          · rw [if_pos hne] at h'; exact absurd h' (by simp)
          · rw [if_neg hne] at h'
            push_neg at hne
            rcases List.mem_cons.mp hx with rfl | hx'
            · rw [hco] at hlk
              injection hlk with h2
              rw [hne, h2]
            · exact ih owners h' x hx' hxe co hco
        | none =>
          rw [hlk] at h
          have h' : check1 app rest ((z.name, z.core) :: owners) = .ok () := h
          rcases List.mem_cons.mp hx with rfl | hx'
          · rw [hco] at hlk; cases hlk
          · by_cases hzx : z.name = x.name
            · rw [← hzx] at hco; rw [hco] at hlk; cases hlk
            · have hext : alookup ((z.name, z.core) :: owners) x.name = some co := by
                simp [alookup, hzx, hco]
              exact ih _ h' x hx' hxe co hext
      · rw [if_neg hze] at h
        rcases List.mem_cons.mp hx with rfl | hx'
        · rw [hxe] at hze; simp [Access.is_exclusive] at hze
        · exact ih owners h x hx' hxe co hco

/-- If the owners loop succeeds, no two exclusive accesses to the same
resource in its input come from different cores. -/
theorem check1_ok_pairwise (app : App) :
    ∀ (l : List RAccess) (owners : List (String × Nat)),
      check1 app l owners = .ok () →
      ∀ x ∈ l, ∀ y ∈ l, x.name = y.name → x.access = Access.exclusive →
        y.access = Access.exclusive → x.core = y.core := by
  intro l
  induction l with
  | nil => intro owners _ x hx; simp at hx
  | cons z rest ih =>
    intro owners h x hx y hy hname hxe hye
    simp only [check1] at h
    by_cases hd : (app.resource? z.name).isNone = true
    · rw [if_pos hd] at h; exact absurd h (by simp)
    · rw [if_neg hd] at h
      by_cases hze : z.access.is_exclusive = true
      · rw [if_pos hze] at h
        cases hlk : alookup owners z.name with
        | some owner =>
          rw [hlk] at h
          have h' :
              (if z.core ≠ owner then
                  Except.error (Diag.crossCoreExclusiveConflict z.name)
                else check1 app rest owners) = .ok () := h
          by_cases hne : z.core ≠ owner
          · rw [if_pos hne] at h'; exact absurd h' (by simp)
          · rw [if_neg hne] at h'
            push_neg at hne
            rcases List.mem_cons.mp hx with rfl | hx' <;>
              rcases List.mem_cons.mp hy with rfl | hy'
            · rfl
            · have hyc := check1_ok_compat app rest owners h' y hy' hye owner
                (by rw [← hname, hlk])
              rw [hne, hyc]
            · have hxc := check1_ok_compat app rest owners h' x hx' hxe owner
                (by rw [hname, hlk])
              rw [hxc, hne]
            · exact ih owners h' x hx' y hy' hname hxe hye
        | none =>
          rw [hlk] at h
          have h' : check1 app rest ((z.name, z.core) :: owners) = .ok () := h
          rcases List.mem_cons.mp hx with rfl | hx' <;>
            rcases List.mem_cons.mp hy with rfl | hy'
          · rfl
          · have hyc := check1_ok_compat app rest _ h' y hy' hye x.core
              (by simp [alookup, ← hname])
            rw [hyc]
          · have hxc := check1_ok_compat app rest _ h' x hx' hxe y.core
              (by simp [alookup, hname])
            rw [hxc]
          · exact ih _ h' x hx' y hy' hname hxe hye
      · rw [if_neg hze] at h
        rcases List.mem_cons.mp hx with rfl | hx'
        · rw [hxe] at hze; simp [Access.is_exclusive] at hze
        · rcases List.mem_cons.mp hy with rfl | hy'
          · rw [hye] at hze; simp [Access.is_exclusive] at hze
          · exact ih owners h x hx' y hy' hname hxe hye

/-- The owners loop accepts a declared, cross-core-consistent access
list whose exclusive accesses agree with the incoming owners map. -/
theorem check1_complete (app : App) :
    ∀ (l : List RAccess) (owners : List (String × Nat)),
      (∀ x ∈ l, (app.resource? x.name).isSome = true) →
      (∀ x ∈ l, ∀ y ∈ l, x.name = y.name → x.access = Access.exclusive →
        y.access = Access.exclusive → x.core = y.core) →
      (∀ x ∈ l, x.access = Access.exclusive →
        ∀ co, alookup owners x.name = some co → x.core = co) →
      check1 app l owners = .ok () := by
  intro l
  induction l with
  | nil => intro owners _ _ _; rfl
  | cons z rest ih =>
    intro owners hdecl hpair hcompat
    simp only [check1]
    have hz := hdecl z (List.mem_cons_self z rest)
    rw [Option.isSome_iff_exists] at hz
    obtain ⟨res, hres⟩ := hz
    rw [if_neg (by simp [hres])]
    by_cases hze : z.access.is_exclusive = true
    · rw [if_pos hze]
      have hzex : z.access = Access.exclusive := is_exclusive_iff.mp hze
      cases hlk : alookup owners z.name with
      | some owner =>
        show (if z.core ≠ owner then
            Except.error (Diag.crossCoreExclusiveConflict z.name)
          else check1 app rest owners) = .ok ()
        have : z.core = owner :=
          hcompat z (List.mem_cons_self z rest) hzex owner hlk
        rw [if_neg (by simp [this])]
        exact ih owners (fun x hx => hdecl x (List.mem_cons_of_mem _ hx))
          (fun x hx y hy => hpair x (List.mem_cons_of_mem _ hx) y
            (List.mem_cons_of_mem _ hy))
          (fun x hx hxe co hco =>
            hcompat x (List.mem_cons_of_mem _ hx) hxe co hco)
      | none =>
        show check1 app rest ((z.name, z.core) :: owners) = .ok ()
        apply ih _ (fun x hx => hdecl x (List.mem_cons_of_mem _ hx))
          (fun x hx y hy => hpair x (List.mem_cons_of_mem _ hx) y
            (List.mem_cons_of_mem _ hy))
        intro x hx hxe co hco
        by_cases hzx : z.name = x.name
        · have : co = z.core := by
            rw [alookup, if_pos hzx] at hco
            exact (Option.some.inj hco).symm
          rw [this]
          exact hpair x (List.mem_cons_of_mem _ hx) z (List.mem_cons_self z rest)
            (by rw [hzx]) hxe hzex
        · rw [alookup, if_neg hzx] at hco
          exact hcompat x (List.mem_cons_of_mem _ hx) hxe co hco
    · rw [if_neg hze]
      exact ih owners (fun x hx => hdecl x (List.mem_cons_of_mem _ hx))
        (fun x hx y hy => hpair x (List.mem_cons_of_mem _ hx) y
          (List.mem_cons_of_mem _ hy))
        (fun x hx hxe co hco =>
          hcompat x (List.mem_cons_of_mem _ hx) hxe co hco)

/-- C1: the validator rejects a model in which a resource is
exclusively accessed from two distinct cores (all referenced resources
being declared), with the cross-core exclusive conflict diagnostic; and
a model the validator accepts has no such pair of accesses. -/
theorem c1_cross_core_exclusive (app : App) (hdecl : declaredAll app) :
    ((∃ x ∈ app.resource_accesses, ∃ y ∈ app.resource_accesses,
        x.name = y.name ∧ x.access = Access.exclusive ∧ y.access = Access.exclusive ∧
          x.core ≠ y.core) →
      ∃ m, check app = .error (.crossCoreExclusiveConflict m)) ∧
      (check app = .ok () → exclusiveConsistent app) := by
  constructor
  · rintro ⟨x, hx, y, hy, hname, hxe, hye, hne⟩
    cases hres : check1 app app.resource_accesses [] with
    | ok u =>
      cases u
      exact absurd (check1_ok_pairwise app _ [] hres x hx y hy hname hxe hye) hne
    | error e =>
      rcases check1_error_shape app _ [] e hres with ⟨z, hz, _, hnone⟩ | ⟨n, he⟩
      · have hds := hdecl z hz
        rw [Option.isNone_iff_eq_none] at hnone
        rw [hnone] at hds
        simp at hds
      · subst he
        refine ⟨n, ?_⟩
        unfold check
        rw [hres]
        rfl
  · intro hok
    unfold check at hok
    have h1 := (exceptSeq_ok_iff.mp hok).1
    intro x hx y hy hname hxe hye
    exact check1_ok_pairwise app _ [] h1 x hx y hy hname hxe hye

/-- C1 at `app10`, a model with a genuine cross-core exclusive conflict. -/
theorem c1_witness :
    declaredAll app10 ∧
      (((∃ x ∈ app10.resource_accesses, ∃ y ∈ app10.resource_accesses,
          x.name = y.name ∧ x.access = Access.exclusive ∧ y.access = Access.exclusive ∧
            x.core ≠ y.core) →
        ∃ m, check app10 = .error (.crossCoreExclusiveConflict m)) ∧
        (check app10 = .ok () → exclusiveConsistent app10)) :=
  ⟨by decide, c1_cross_core_exclusive app10 (by decide)⟩

/-- The mixed-access scan raises the mixed-access diagnostic whenever a
shared access's resource is in the prioritized-exclusives set. -/
theorem check2Loop_error_of_mem (excl : List String) :
    ∀ l : List RAccess, (∃ x ∈ l, x.access = Access.shared ∧ x.name ∈ excl) →
      ∃ m, check2Loop excl l = .error (.mixedAccessMode m) := by
  intro l
  induction l with
  | nil => rintro ⟨x, hx, _⟩; simp at hx
  | cons z rest ih =>
    rintro ⟨x, hx, hxs, hxm⟩
    simp only [check2Loop]
    by_cases hc : (z.access.is_shared && decide (z.name ∈ excl)) = true
    · rw [if_pos hc]
      exact ⟨z.name, rfl⟩
    · rw [if_neg hc]
      apply ih
      rcases List.mem_cons.mp hx with rfl | hx'
      · exact absurd (by simp [hxs, Access.is_shared, hxm]) hc
      · exact ⟨x, hx', hxs, hxm⟩

/-- The resource a mixed-access diagnostic names is in the
prioritized-exclusives set. -/
theorem check2Loop_error_name (excl : List String) :
    ∀ (l : List RAccess) (m : String),
      check2Loop excl l = .error (.mixedAccessMode m) → m ∈ excl := by
  intro l
  induction l with
  | nil => intro m h; simp [check2Loop] at h
  | cons z rest ih =>
    intro m h
    simp only [check2Loop] at h
    by_cases hc : (z.access.is_shared && decide (z.name ∈ excl)) = true
    · rw [if_pos hc] at h
      cases h
      rw [Bool.and_eq_true] at hc
      exact of_decide_eq_true hc.2
    · rw [if_neg hc] at h
      exact ih m h

/-- Membership in `exclusive_accesses` unpacked: a prioritized
exclusive access to the named resource exists. -/
theorem mem_exclusive_accesses (app : App) (m : String)
    (h : m ∈ exclusive_accesses app) :
    ∃ x ∈ app.resource_accesses, x.name = m ∧ x.priority.isSome = true ∧
      x.access = Access.exclusive := by
  obtain ⟨x, hx, hfx⟩ := List.mem_filterMap.mp h
  by_cases hc : (x.priority.isSome && x.access.is_exclusive) = true
  · rw [if_pos hc] at hfx
    injection hfx with he
    rw [Bool.and_eq_true] at hc
    exact ⟨x, hx, he, hc.1, is_exclusive_iff.mp hc.2⟩
  · rw [if_neg hc] at hfx
    cases hfx

/-- C2: a prioritized (priority above zero, hence non-init) exclusive
access combined with a shared access to the same resource makes the
validator reject the model with the mixed-access diagnostic (given
declared resources and no cross-core exclusive conflict, which the
validator reports first); and the mixed-access scan never names a
resource whose exclusive accesses all come from init units. -/
theorem c2_mixed_access (app : App) (hdecl : declaredAll app)
    (hcons : exclusiveConsistent app) :
    ((∃ x ∈ app.resource_accesses, (∃ q, x.priority = some q ∧ 0 < q) ∧
        x.access = Access.exclusive ∧
        ∃ y ∈ app.resource_accesses, y.name = x.name ∧ y.access = Access.shared) →
      ∃ m, check app = .error (.mixedAccessMode m)) ∧
      (∀ r : String,
        (∀ x ∈ app.resource_accesses, x.name = r →
          x.access = Access.exclusive → x.priority = none) →
        check2 app ≠ .error (.mixedAccessMode r)) := by
  constructor
  · rintro ⟨x, hx, ⟨q, hq, _⟩, hxe, y, hy, hyname, hys⟩
    have h1 : check1 app app.resource_accesses [] = .ok () :=
      check1_complete app _ [] hdecl hcons
        (by intro z _ _ co hco; simp [alookup] at hco)
    have hxm : x.name ∈ exclusive_accesses app :=
      List.mem_filterMap.mpr ⟨x, hx, by simp [hq, hxe, Access.is_exclusive]⟩
    obtain ⟨m, hm⟩ := check2Loop_error_of_mem (exclusive_accesses app)
      app.resource_accesses ⟨y, hy, hys, by rw [hyname]; exact hxm⟩
    refine ⟨m, ?_⟩
    unfold check check2
    rw [h1, hm]
    rfl
  · intro r hr hcontra
    unfold check2 at hcontra
    have hmem := check2Loop_error_name _ _ r hcontra
    obtain ⟨x, hx, hxn, hps, hxe⟩ := mem_exclusive_accesses app r hmem
    have hnone := hr x hx hxn hxe
    rw [hnone] at hps
    simp at hps

/-- C2 at `app2w`: a prioritized exclusive lock and a by-reference
borrow of `x` coexist, so validation fails with the mixed-access
diagnostic. -/
theorem c2_witness :
    (declaredAll app2w ∧ exclusiveConsistent app2w) ∧
      (((∃ x ∈ app2w.resource_accesses, (∃ q, x.priority = some q ∧ 0 < q) ∧
          x.access = Access.exclusive ∧
          ∃ y ∈ app2w.resource_accesses, y.name = x.name ∧ y.access = Access.shared) →
        ∃ m, check app2w = .error (.mixedAccessMode m)) ∧
        (∀ r : String,
          (∀ x ∈ app2w.resource_accesses, x.name = r →
            x.access = Access.exclusive → x.priority = none) →
          check2 app2w ≠ .error (.mixedAccessMode r))) :=
  ⟨⟨by decide, by decide⟩, c2_mixed_access app2w (by decide) (by decide)⟩

/-- Keys-distinct association lists bind each key to one value. -/
theorem key_nodup_unique {α β : Type} {l : List (α × β)}
    (h : (l.map Prod.fst).Nodup) {r : α} {c c' : β}
    (h1 : (r, c) ∈ l) (h2 : (r, c') ∈ l) : c = c' := by
  induction l with
  | nil => simp at h1
  | cons p t ih =>
    simp only [List.map_cons, List.nodup_cons] at h
    rcases List.mem_cons.mp h1 with rfl | h1' <;>
      rcases List.mem_cons.mp h2 with he | h2'
    · exact (Prod.mk.injEq .. ▸ he).2.symm
    · exact absurd (List.mem_map.mpr ⟨(r, c'), h2', rfl⟩) h.1
    · cases he
      exact absurd (List.mem_map.mpr ⟨(r, c), h1', rfl⟩) h.1
    · exact ih h.2 h1' h2'

/-- What a successful run of the explicit-claim loop guarantees: each
claimed name is late and fresh, the claim list repeats no name, and the
outgoing `initialized` map and unclaimed set are the incoming ones with
exactly the claimed names added, respectively erased. -/
theorem claimLoop_ok (app : App) (core : Nat) :
    ∀ (rl : List String) (initialized : List (String × Nat)) (set : List String)
      (out : List (String × Nat) × List String),
      claimLoop app core rl initialized set = .ok out →
      (∀ r ∈ rl, r ∈ app.lateNames) ∧
      (∀ r ∈ rl, alookup initialized r = none) ∧
      rl.Nodup ∧
      (∀ r, alookup out.1 r = none ↔ (alookup initialized r = none ∧ r ∉ rl)) ∧
      (set.Nodup → out.2.Nodup ∧ (∀ r, r ∈ out.2 ↔ (r ∈ set ∧ r ∉ rl))) := by
  intro rl
  induction rl with
  | nil =>
    intro initialized set out h
    simp only [claimLoop] at h
    cases h
    refine ⟨by simp, by simp, List.nodup_nil, by simp, fun hn => ⟨hn, by simp⟩⟩
  | cons res more ih =>
    intro initialized set out h
    simp only [claimLoop] at h
    by_cases hmem : res ∈ app.lateNames
    · rw [if_neg (by simpa using hmem)] at h
      cases hlk : alookup initialized res with
      | some other => rw [hlk] at h; exact absurd h (by simp)
      | none =>
        rw [hlk] at h
        have h' : claimLoop app core more ((res, core) :: initialized)
            (set.erase res) = .ok out := h
        obtain ⟨g1, g2, g3, g4, g5⟩ := ih _ _ _ h'
        refine ⟨?_, ?_, ?_, ?_, ?_⟩
        · intro r hr
          rcases List.mem_cons.mp hr with rfl | hr'
          · exact hmem
          · exact g1 r hr'
        · intro r hr
          rcases List.mem_cons.mp hr with rfl | hr'
          · exact hlk
          · have := g2 r hr'
            rw [alookup] at this
            by_cases hrr : res = r
            · rw [if_pos hrr] at this; cases this
            · rwa [if_neg hrr] at this
        · refine List.nodup_cons.mpr ⟨?_, g3⟩
          intro hres
          have := g2 res hres
          rw [alookup, if_pos rfl] at this
          cases this
        · intro r
          rw [g4 r, alookup]
          by_cases hrr : res = r
          · subst hrr
            simp
          · rw [if_neg hrr]
            constructor
            · rintro ⟨ha, hb⟩
              exact ⟨ha, by simp [hb, Ne.symm hrr]⟩
            · rintro ⟨ha, hb⟩
              simp only [List.mem_cons, not_or] at hb
              exact ⟨ha, hb.2⟩
        · intro hnd
          obtain ⟨o1, o2⟩ := g5 (hnd.erase res)
          refine ⟨o1, fun r => ?_⟩
          rw [o2 r, hnd.mem_erase_iff]
          constructor
          · rintro ⟨⟨hne, hset⟩, hnm⟩
            exact ⟨hset, by simp [hne, hnm]⟩
          · rintro ⟨hset, hnm⟩
            simp only [List.mem_cons, not_or] at hnm
            exact ⟨⟨hnm.1, hset⟩, hnm.2⟩
    · rw [if_pos (by simpa using hmem)] at h
      exact absurd h (by simp)

/-- The explicit late-resource claims the multi-core loop processes,
paired with the claiming core. -/
def processedClaims (l : List (Nat × Init)) : List (String × Nat) :=
  l.flatMap fun ci =>
    if ci.2.returns_late_resources then ci.2.late.map (fun r => (r, ci.1)) else []

/-- The cores whose init units claim the remainder: they return
`LateResources` with an empty explicit list. -/
def remainders (l : List (Nat × Init)) : List Nat :=
  l.filterMap fun ci =>
    if ci.2.returns_late_resources && ci.2.late.isEmpty then some ci.1 else none

theorem processedClaims_keys (l : List (Nat × Init)) :
    (processedClaims l).map Prod.fst =
      l.flatMap fun ci =>
        if ci.2.returns_late_resources then ci.2.late else [] := by
  induction l with
  | nil => rfl
  | cons ci t ih =>
    simp only [processedClaims, List.flatMap_cons, List.map_append] at *
    rw [ih]
    congr 1
    by_cases hr : ci.2.returns_late_resources = true
    · rw [if_pos hr, if_pos hr, List.map_map]
      rw [show (Prod.fst ∘ fun r : String => (r, ci.1)) = id from rfl, List.map_id]
    · simp [hr]

/-- What a successful run of the multi-core late-resource loop
guarantees: every processed claim is a fresh late resource, no name is
claimed twice, the outgoing map and set reflect exactly the processed
claims, and at most one core claims the remainder. -/
theorem lateLoop_ok (app : App) :
    ∀ (l : List (Nat × Init)) (rest : Option Nat)
      (initialized : List (String × Nat)) (set : List String)
      (out : Option Nat × List (String × Nat) × List String),
      lateLoop app l rest initialized set = .ok out →
      (∀ rc ∈ processedClaims l,
        rc.1 ∈ app.lateNames ∧ alookup initialized rc.1 = none) ∧
      ((processedClaims l).map Prod.fst).Nodup ∧
      (∀ r, alookup out.2.1 r = none ↔
        (alookup initialized r = none ∧ r ∉ (processedClaims l).map Prod.fst)) ∧
      (set.Nodup → out.2.2.Nodup ∧
        (∀ r, r ∈ out.2.2 ↔ (r ∈ set ∧ r ∉ (processedClaims l).map Prod.fst))) ∧
      ((rest = none → (out.1 = none ∧ remainders l = []) ∨
          ∃ c, out.1 = some c ∧ remainders l = [c]) ∧
        (∀ c₀, rest = some c₀ → out.1 = some c₀ ∧ remainders l = [])) := by
  intro l
  induction l with
  | nil =>
    intro rest initialized set out h
    simp only [lateLoop] at h
    cases h
    refine ⟨by simp [processedClaims], by simp [processedClaims], ?_, ?_, ?_, ?_⟩
    · intro r; simp [processedClaims]
    · intro hn; exact ⟨hn, by simp [processedClaims]⟩
    · intro hr; exact .inl ⟨hr, rfl⟩
    · intro c₀ hc₀; exact ⟨hc₀, rfl⟩
  | cons ci t ih =>
    intro rest initialized set out h
    simp only [lateLoop] at h
    by_cases hret : ci.2.returns_late_resources = true
    · rw [if_neg (by simp [hret])] at h
      by_cases hempty : set.isEmpty = true
      · rw [if_pos hempty] at h
        exact Except.noConfusion h
      · rw [if_neg hempty] at h
        by_cases hlate : ci.2.late.isEmpty = true
        · rw [if_neg (by simp [hlate])] at h
          cases rest with
          | some r₀ =>
            have h' : (Except.error (Diag.ambiguousRemainderClaim r₀ ci.1) :
                Except Diag (Option Nat × List (String × Nat) × List String)) =
                  .ok out := h
            exact Except.noConfusion h'
          | none =>
            have h' : lateLoop app t (some ci.1) initialized set = .ok out := h
            obtain ⟨g1, g2, g3, g4, g5⟩ := ih (some ci.1) initialized set out h'
            have hlate' : ci.2.late = [] := List.isEmpty_iff.mp hlate
            have hpc : processedClaims (ci :: t) = processedClaims t := by
              simp [processedClaims, hlate', hret]
            have hrem : remainders (ci :: t) = ci.1 :: remainders t := by
              simp [remainders, List.filterMap_cons, hret, hlate']
            rw [hpc, hrem]
            obtain ⟨o1, o2⟩ := g5.2 ci.1 rfl
            refine ⟨g1, g2, g3, g4, ?_, ?_⟩
            · intro _
              exact .inr ⟨ci.1, o1, by rw [o2]⟩
            · intro c₀ hc₀
              exact Option.noConfusion hc₀
        · rw [if_pos (by simp [hlate])] at h
          cases hcl : claimLoop app ci.1 ci.2.late initialized set with
          | error e =>
            rw [hcl] at h
            have h' : (Except.error e :
                Except Diag (Option Nat × List (String × Nat) × List String)) =
                  .ok out := h
            exact Except.noConfusion h'
          | ok iset =>
            rw [hcl] at h
            have h' : lateLoop app t rest iset.1 iset.2 = .ok out := h
            obtain ⟨c1, c2, c3, c4, c5⟩ :=
              claimLoop_ok app ci.1 ci.2.late initialized set iset hcl
            obtain ⟨g1, g2, g3, g4, g5⟩ := ih rest iset.1 iset.2 out h'
            have hpc : processedClaims (ci :: t) =
                ci.2.late.map (fun r => (r, ci.1)) ++ processedClaims t := by
              simp [processedClaims, hret]
            have hkeys : (processedClaims (ci :: t)).map Prod.fst =
                ci.2.late ++ (processedClaims t).map Prod.fst := by
              rw [hpc, List.map_append]
              congr 1
              rw [List.map_map]
              rw [show (Prod.fst ∘ fun r : String => (r, ci.1)) = id from rfl,
                List.map_id]
            have hlate' : ¬ ci.2.late = [] := fun he => hlate (by simp [he])
            have hrem : remainders (ci :: t) = remainders t := by
              simp [remainders, List.filterMap_cons, hret, hlate']
            refine ⟨?_, ?_, ?_, ?_, ?_⟩
            · rw [hpc]
              intro rc hrc
              rcases List.mem_append.mp hrc with hh | ht
              · obtain ⟨r, hr, rfl⟩ := List.mem_map.mp hh
                exact ⟨c1 r hr, c2 r hr⟩
              · obtain ⟨hl, hi⟩ := g1 rc ht
                exact ⟨hl, ((c4 rc.1).mp hi).1⟩
            · rw [hkeys]
              rw [List.nodup_append]
              refine ⟨c3, g2, ?_⟩
              intro r hr hrt
              obtain ⟨rc, hrc, hfst⟩ := List.mem_map.mp hrt
              obtain ⟨_, hi⟩ := g1 rc hrc
              rw [hfst] at hi
              exact ((c4 r).mp hi).2 hr
            · intro r
              rw [g3 r, c4 r, hkeys]
              simp only [List.mem_append]
              tauto
            · intro hnd
              obtain ⟨o1, o2⟩ := c5 hnd
              obtain ⟨p1, p2⟩ := g4 o1
              refine ⟨p1, fun r => ?_⟩
              rw [p2 r, o2 r, hkeys]
              simp only [List.mem_append]
              tauto
            · rw [hrem]
              exact g5
    · rw [if_pos (by simp [hret])] at h
      have h' : lateLoop app t rest initialized set = .ok out := h
      obtain ⟨g1, g2, g3, g4, g5⟩ := ih rest initialized set out h'
      have hpc : processedClaims (ci :: t) = processedClaims t := by
        simp [processedClaims, hret]
      have hrem : remainders (ci :: t) = remainders t := by
        simp [remainders, hret]
      rw [hpc, hrem]
      exact ⟨g1, g2, g3, g4, g5⟩

/-- When no late resources exist, acceptance means no init unit
returns `LateResources`. -/
theorem check4Empty_ok :
    ∀ l : List (Nat × Init), check4Empty l = .ok () →
      ∀ ci ∈ l, ci.2.returns_late_resources = false := by
  intro l
  induction l with
  | nil => intro _ ci hci; simp at hci
  | cons z t ih =>
    intro h ci hci
    simp only [check4Empty] at h
    by_cases hr : z.2.returns_late_resources = true
    · rw [if_pos hr] at h
      exact Except.noConfusion h
    · rw [if_neg hr] at h
      rcases List.mem_cons.mp hci with rfl | hci'
      · exact Bool.eq_false_iff.mpr hr
      · exact ih h ci hci'

/-- Membership in a core's multi-core late-resource schedule: either
the core explicitly claimed the resource, or it is the remainder
claimer and the resource is an unclaimed late resource. -/
theorem mem_schedule_late_multi (app : App)
    (h2 : (app.inits.map Prod.fst).Nodup) (hc1 : ¬ app.cores = 1)
    (r : String) (c : Nat) :
    r ∈ schedule_late app c ↔
      (r, c) ∈ processedClaims app.inits ∨
        (c ∈ remainders app.inits ∧ r ∈ app.lateNames ∧
          r ∉ explicitClaims app) := by
  constructor
  · intro hr
    unfold schedule_late at hr
    rw [if_neg hc1] at hr
    cases hlk : alookup app.inits c with
    | none => rw [hlk] at hr; simp at hr
    | some i =>
      rw [hlk] at hr
      have hr' : r ∈ (if i.returns_late_resources then
          (if ¬ i.late.isEmpty then i.late
            else app.lateNames.filter fun x => ¬ x ∈ explicitClaims app)
          else []) := hr
      by_cases hret : i.returns_late_resources = true
      · rw [if_pos hret] at hr'
        by_cases hl : i.late.isEmpty = true
        · rw [if_neg (by simp [hl])] at hr'
          rw [List.mem_filter] at hr'
          refine .inr ⟨?_, hr'.1, by simpa using hr'.2⟩
          exact List.mem_filterMap.mpr ⟨(c, i), alookup_mem hlk, by simp [hret, hl]⟩
        · rw [if_pos hl] at hr'
          refine .inl (List.mem_flatMap.mpr ⟨(c, i), alookup_mem hlk, ?_⟩)
          have : ((c, i).2.returns_late_resources = true) := hret
          rw [if_pos this]
          exact List.mem_map.mpr ⟨r, hr', rfl⟩
      · rw [if_neg hret] at hr'
        simp at hr'
  · intro h
    rcases h with hpc | ⟨hrem, hrl, hrncl⟩
    · obtain ⟨ci, hci, hmem⟩ := List.mem_flatMap.mp hpc
      by_cases hret : ci.2.returns_late_resources = true
      · rw [if_pos hret] at hmem
        obtain ⟨r', hr', heq⟩ := List.mem_map.mp hmem
        have e1 : r' = r := congrArg Prod.fst heq
        have e2 : ci.1 = c := congrArg Prod.snd heq
        have hlk : alookup app.inits c = some ci.2 :=
          alookup_of_mem h2 (by rw [← e2]; exact Prod.mk.eta ▸ hci)
        unfold schedule_late
        rw [if_neg hc1, hlk]
        show r ∈ (if ci.2.returns_late_resources then
            (if ¬ ci.2.late.isEmpty then ci.2.late
              else app.lateNames.filter fun x => ¬ x ∈ explicitClaims app)
            else [])
        have hrin : r ∈ ci.2.late := e1 ▸ hr'
        rw [if_pos hret,
          if_pos (show ¬ ci.2.late.isEmpty = true from
            fun hE => List.ne_nil_of_mem hrin (List.isEmpty_iff.mp hE))]
        exact hrin
      · rw [if_neg hret] at hmem
        simp at hmem
    · obtain ⟨ci, hci, hcond⟩ := List.mem_filterMap.mp hrem
      by_cases hcnd : (ci.2.returns_late_resources && ci.2.late.isEmpty) = true
      · rw [if_pos hcnd] at hcond
        injection hcond with he
        rw [Bool.and_eq_true] at hcnd
        have hlk : alookup app.inits c = some ci.2 :=
          alookup_of_mem h2 (by rw [← he]; exact Prod.mk.eta ▸ hci)
        unfold schedule_late
        rw [if_neg hc1, hlk]
        show r ∈ (if ci.2.returns_late_resources then
            (if ¬ ci.2.late.isEmpty then ci.2.late
              else app.lateNames.filter fun x => ¬ x ∈ explicitClaims app)
            else [])
        rw [if_pos hcnd.1, if_neg (by simp [hcnd.2])]
        rw [List.mem_filter]
        exact ⟨hrl, by simpa using hrncl⟩
      · rw [if_neg hcnd] at hcond
        cases hcond

/-- Late-resource coverage: a validated model's late-resource schedule
partitions the declared late-resource set. -/
theorem late_partition_of_check4 (app : App)
    (h1 : app.lateNames.Nodup) (h2 : (app.inits.map Prod.fst).Nodup)
    (hok : check4 app = .ok ()) :
    (∀ r, r ∈ app.lateNames ↔ ∃ c, r ∈ schedule_late app c) ∧
      (∀ r c c', r ∈ schedule_late app c → r ∈ schedule_late app c' → c = c') := by
  unfold check4 at hok
  by_cases hemp : app.lateNames.isEmpty = true
  · rw [if_pos hemp] at hok
    have hnone := check4Empty_ok app.inits hok
    have hnil : app.lateNames = [] := List.isEmpty_iff.mp hemp
    have hsl : ∀ c, schedule_late app c = [] := by
      intro c
      unfold schedule_late
      by_cases hc : app.cores = 1
      · rw [if_pos hc]
        by_cases h0 : c = 0 <;> simp [h0, hnil]
      · rw [if_neg hc]
        cases hlk : alookup app.inits c with
        | none => rfl
        | some i =>
          show (if i.returns_late_resources then
              (if ¬ i.late.isEmpty then i.late
                else app.lateNames.filter fun x => ¬ x ∈ explicitClaims app)
              else []) = []
          have hf : i.returns_late_resources = false := hnone (c, i) (alookup_mem hlk)
          rw [if_neg (by simp [hf])]
    constructor
    · intro r
      simp [hnil, hsl]
    · intro r c c' hc _
      rw [hsl c] at hc
      simp at hc
  · rw [if_neg hemp] at hok
    by_cases hc1 : app.cores = 1
    · rw [if_pos hc1] at hok
      constructor
      · intro r
        constructor
        · intro hr
          exact ⟨0, by simp [schedule_late, hc1, hr]⟩
        · rintro ⟨c, hc⟩
          unfold schedule_late at hc
          rw [if_pos hc1] at hc
          by_cases h0 : c = 0
          · rwa [if_pos h0] at hc
          · rw [if_neg h0] at hc
            simp at hc
      · intro r c c' hc hc'
        unfold schedule_late at hc hc'
        rw [if_pos hc1] at hc hc'
        by_cases g : c = 0
        · by_cases g' : c' = 0
          · rw [g, g']
          · rw [if_neg g'] at hc'
            simp at hc'
        · rw [if_neg g] at hc
          simp at hc
    · rw [if_neg hc1] at hok
      unfold check4Multi at hok
      cases hll : lateLoop app app.inits none [] app.lateNames with
      | error e => rw [hll] at hok; exact Except.noConfusion hok
      | ok out =>
        rw [hll] at hok
        obtain ⟨g1, g2, g3, g4, g5⟩ :=
          lateLoop_ok app app.inits none [] app.lateNames out hll
        have hkeys : (processedClaims app.inits).map Prod.fst = explicitClaims app :=
          processedClaims_keys app.inits
        obtain ⟨_, smem⟩ := g4 h1
        have htail : out.2.2 = [] ∨ ∃ c, out.1 = some c := by
          have hok0 : (match out.2.2.head? with
              | some res =>
                if out.1.isNone then
                  Except.error (Diag.unclaimedLateResource res)
                else Except.ok ()
              | none => Except.ok ()) = .ok () := hok
          cases hh : out.2.2.head? with
          | none => exact .inl (List.head?_eq_none_iff.mp hh)
          | some res =>
            rw [hh] at hok0
            have hok' : (if out.1.isNone then
                Except.error (Diag.unclaimedLateResource res)
              else Except.ok ()) = .ok () := hok0
            by_cases hn : out.1.isNone = true
            · rw [if_pos hn] at hok'
              exact Except.noConfusion hok'
            · refine .inr ?_
              rw [Option.isNone_iff_eq_none] at hn
              exact Option.ne_none_iff_exists'.mp hn
        constructor
        · intro r
          constructor
          · intro hr
            by_cases hcl : r ∈ explicitClaims app
            · rw [← hkeys] at hcl
              obtain ⟨rc, hrc, hfst⟩ := List.mem_map.mp hcl
              refine ⟨rc.2, ?_⟩
              rw [mem_schedule_late_multi app h2 hc1]
              exact .inl (by rw [← hfst]; exact Prod.mk.eta ▸ hrc)
            · have hrout : r ∈ out.2.2 := by
                rw [smem r, hkeys]
                exact ⟨hr, hcl⟩
              rcases htail with hnil2 | ⟨c, hc⟩
              · rw [hnil2] at hrout
                simp at hrout
              · rcases g5.1 rfl with ⟨hnone, _⟩ | ⟨c', hc', hrem⟩
                · rw [hc] at hnone
                  exact Option.noConfusion hnone
                · refine ⟨c', ?_⟩
                  rw [mem_schedule_late_multi app h2 hc1]
                  exact .inr ⟨by rw [hrem]; exact List.mem_singleton_self c',
                    hr, hcl⟩
          · rintro ⟨c, hc⟩
            rcases (mem_schedule_late_multi app h2 hc1 r c).mp hc with hpc | hrm
            · exact (g1 (r, c) hpc).1
            · exact hrm.2.1
        · intro r c c' hc hc'
          rcases (mem_schedule_late_multi app h2 hc1 r c).mp hc with hpc | hrm <;>
            rcases (mem_schedule_late_multi app h2 hc1 r c').mp hc' with hpc' | hrm'
          · exact key_nodup_unique g2 hpc hpc'
          · exact absurd (by rw [← hkeys]; exact List.mem_map.mpr ⟨(r, c), hpc, rfl⟩)
              hrm'.2.2
          · exact absurd (by rw [← hkeys]; exact List.mem_map.mpr ⟨(r, c'), hpc', rfl⟩)
              hrm.2.2
          · rcases g5.1 rfl with ⟨_, hrem⟩ | ⟨c₀, _, hrem⟩
            · rw [hrem] at hrm
              simp at hrm
            · rw [hrem] at hrm hrm'
              rw [List.mem_singleton.mp hrm.1, List.mem_singleton.mp hrm'.1]

/-- Acceptance by the whole validator means acceptance by each of its
six rule groups. -/
theorem check_ok_parts (app : App) (h : check app = .ok ()) :
    check1 app app.resource_accesses [] = .ok () ∧ check2 app = .ok () ∧
      check3 app = .ok () ∧ check4 app = .ok () ∧ check5 app = .ok () ∧
      check6 app = .ok () := by
  unfold check at h
  have a1 := exceptSeq_ok_iff.mp h
  have a2 := exceptSeq_ok_iff.mp a1.2
  have a3 := exceptSeq_ok_iff.mp a2.2
  have a4 := exceptSeq_ok_iff.mp a3.2
  have a5 := exceptSeq_ok_iff.mp a4.2
  exact ⟨a1.1, a2.1, a3.1, a4.1, a5.1, a5.2⟩

/-- C3: a validated model has, in the single-core case, an init unit at
core 0 returning `LateResources` whenever late resources exist; and in
every case its late-resource schedule partitions the declared
late-resource set — every late resource goes to exactly one core, and
nothing else is scheduled. -/
theorem c3_late_coverage (app : App) (h1 : app.lateNames.Nodup)
    (h2 : (app.inits.map Prod.fst).Nodup) (hok : check app = .ok ()) :
    (app.cores = 1 → app.lateNames ≠ [] →
      ∃ i, alookup app.inits 0 = some i ∧ i.returns_late_resources = true) ∧
      (∀ r, r ∈ app.lateNames ↔ ∃ c, r ∈ schedule_late app c) ∧
      (∀ r c c', r ∈ schedule_late app c → r ∈ schedule_late app c' → c = c') := by
  have h4 := (check_ok_parts app hok).2.2.2.1
  refine ⟨?_, late_partition_of_check4 app h1 h2 h4⟩
  intro hc1 hne
  unfold check4 at h4
  rw [if_neg (by simpa [List.isEmpty_iff] using hne), if_pos hc1] at h4
  unfold check4Single at h4
  cases hlk : alookup app.inits 0 with
  | none => rw [hlk] at h4; exact Except.noConfusion h4
  | some i =>
    rw [hlk] at h4
    have h4' : (if !i.returns_late_resources then
        Except.error Diag.missingLateResourceInit else Except.ok ()) = .ok () := h4
    by_cases hr : i.returns_late_resources = true
    · exact ⟨i, rfl, hr⟩
    · rw [if_pos (by simp [Bool.eq_false_iff.mpr hr])] at h4'
      exact Except.noConfusion h4'

/-- C3 at the `late_resources_split` test's application: core 0's init
claims `x`, core 1's init takes the remainder `y`. -/
theorem c3_witness :
    (app3.lateNames.Nodup ∧ (app3.inits.map Prod.fst).Nodup ∧
        check app3 = .ok ()) ∧
      ((app3.cores = 1 → app3.lateNames ≠ [] →
          ∃ i, alookup app3.inits 0 = some i ∧ i.returns_late_resources = true) ∧
        (∀ r, r ∈ app3.lateNames ↔ ∃ c, r ∈ schedule_late app3 c) ∧
        (∀ r c c', r ∈ schedule_late app3 c → r ∈ schedule_late app3 c' → c = c')) :=
  ⟨⟨by decide, by decide, rfl⟩, c3_late_coverage app3 (by decide) (by decide) rfl⟩

/-- A core with a nonempty late-resource schedule is one of the
application's cores. -/
theorem schedule_late_core_lt (app : App)
    (h3 : ∀ ci ∈ app.inits, ci.1 < app.cores) {r : String} {P : Nat}
    (hr : r ∈ schedule_late app P) : P < app.cores := by
  unfold schedule_late at hr
  by_cases hc : app.cores = 1
  · rw [if_pos hc] at hr
    by_cases h0 : P = 0
    · rw [h0, hc]
      exact Nat.zero_lt_one
    · rw [if_neg h0] at hr
      simp at hr
  · rw [if_neg hc] at hr
    cases hlk : alookup app.inits P with
    | none => rw [hlk] at hr; simp at hr
    | some i => exact h3 (P, i) (alookup_mem hlk)

/-- With a partitioning schedule, `producer` finds exactly the core
whose schedule holds the resource. -/
theorem producer_eq_some (app : App) {r : String} {P : Nat}
    (hP : P < app.cores) (hr : r ∈ schedule_late app P)
    (huniq : ∀ r c c', r ∈ schedule_late app c → r ∈ schedule_late app c' → c = c') :
    producer app r = some P := by
  unfold producer
  cases hf : (List.range app.cores).find? (fun c => decide (r ∈ schedule_late app c)) with
  | none =>
    rw [List.find?_eq_none] at hf
    exact absurd (decide_eq_true hr) (hf P (List.mem_range.mpr hP))
  | some c =>
    have hp := List.find?_some hf
    have hpred : r ∈ schedule_late app c := of_decide_eq_true hp
    rw [huniq r c P hpred hr]

/-- A found producer's schedule holds the resource. -/
theorem producer_sched (app : App) {r : String} {P : Nat}
    (h : producer app r = some P) : r ∈ schedule_late app P := by
  unfold producer at h
  have hp := List.find?_some h
  exact of_decide_eq_true hp

/-- C5: a validated model's initialization barriers — core `P` is in
core `C`'s barrier set exactly when some resource owned by `C` and
flagged cross-initialized is produced by `P`'s init unit per the
late-resource schedule; cores with no cross-initialized resource have
an empty barrier set. -/
theorem c5_initialization_barriers (app : App) (h1 : app.lateNames.Nodup)
    (h2 : (app.inits.map Prod.fst).Nodup)
    (h3 : ∀ ci ∈ app.inits, ci.1 < app.cores) (hok : check app = .ok ()) :
    (∀ C P, P ∈ initialization_barriers app C ↔
        ∃ r, (r, Location.Owned C true) ∈ locations app ∧
          r ∈ schedule_late app P) ∧
      (∀ C, (∀ r, (r, Location.Owned C true) ∉ locations app) →
        initialization_barriers app C = []) := by
  have huniq := (late_partition_of_check4 app h1 h2
    (check_ok_parts app hok).2.2.2.1).2
  constructor
  · intro C P
    constructor
    · intro hP
      rw [initialization_barriers, List.mem_dedup] at hP
      obtain ⟨rl, hrl, hf⟩ := List.mem_filterMap.mp hP
      refine ⟨rl.1, ?_, ?_⟩
      · cases hloc : rl.2 with
        | Shared cs => rw [hloc] at hf; cases hf
        | Owned c' b =>
          cases b with
          | false => rw [hloc] at hf; cases hf
          | true =>
            rw [hloc] at hf
            have hf' : (if c' = C then producer app rl.1 else none) = some P := hf
            by_cases hcc : c' = C
            · rw [← hcc]
              rw [← hloc]
              exact Prod.mk.eta ▸ hrl
            · rw [if_neg hcc] at hf'
              cases hf'
      · cases hloc : rl.2 with
        | Shared cs => rw [hloc] at hf; cases hf
        | Owned c' b =>
          cases b with
          | false => rw [hloc] at hf; cases hf
          | true =>
            rw [hloc] at hf
            have hf' : (if c' = C then producer app rl.1 else none) = some P := hf
            by_cases hcc : c' = C
            · rw [if_pos hcc] at hf'
              exact producer_sched app hf'
            · rw [if_neg hcc] at hf'
              cases hf'
    · rintro ⟨r, hrloc, hrsched⟩
      rw [initialization_barriers, List.mem_dedup]
      refine List.mem_filterMap.mpr ⟨(r, Location.Owned C true), hrloc, ?_⟩
      show (if C = C then producer app r else none) = some P
      rw [if_pos rfl]
      exact producer_eq_some app
        (schedule_late_core_lt app h3 hrsched) hrsched huniq
  · intro C hno
    rw [initialization_barriers]
    rw [List.filterMap_eq_nil_iff.mpr, List.dedup_nil]
    intro rl hrl
    cases hloc : rl.2 with
    | Shared cs => rfl
    | Owned c' b =>
      cases b with
      | false => rfl
      | true =>
        show (if c' = C then producer app rl.1 else none) = none
        by_cases hcc : c' = C
        · exfalso
          apply hno rl.1
          rw [← hcc, ← hloc]
          exact Prod.mk.eta ▸ hrl
        · rw [if_neg hcc]

/-- C5 at the `initialization_barrier` test's application: core 1's
barrier set is exactly the producer core 0 of `x`. -/
theorem c5_witness :
    (app5.lateNames.Nodup ∧ (app5.inits.map Prod.fst).Nodup ∧
        (∀ ci ∈ app5.inits, ci.1 < app5.cores) ∧ check app5 = .ok ()) ∧
      ((∀ C P, P ∈ initialization_barriers app5 C ↔
          ∃ r, (r, Location.Owned C true) ∈ locations app5 ∧
            r ∈ schedule_late app5 P) ∧
        (∀ C, (∀ r, (r, Location.Owned C true) ∉ locations app5) →
          initialization_barriers app5 C = [])) :=
  ⟨⟨by decide, by decide, by decide, rfl⟩,
    c5_initialization_barriers app5 (by decide) (by decide) (by decide) rfl⟩

/-- C10: init-unit accesses participate in the cross-core exclusive
ownership check — in `app10`, core 0's init unit exclusively accesses
`r` and a task on core 1 also accesses `r` exclusively, and the
validator rejects the model with the cross-core exclusive conflict. -/
theorem c10_init_owns_exclusive :
    check app10 = .error (.crossCoreExclusiveConflict "r") ∧
      (⟨0, none, "r", .exclusive⟩ : RAccess) ∈ app10.resource_accesses ∧
      (⟨1, some 1, "r", .exclusive⟩ : RAccess) ∈ app10.resource_accesses := by
  refine ⟨rfl, ?_, ?_⟩ <;> decide

/-- C9 (counterexample): in `app9`, core 1's init unit returns
`LateResources` with an empty explicit list after core 0's init has
explicitly claimed every late resource, and the validator rejects the
model (the claim says it is accepted as a no-op remainder claim). -/
theorem c9_counterexample :
    check app9 = .error (.noMoreLateResources 1) := rfl

/-- C9 (amended): an init unit that returns `LateResources` when the
multi-core loop's unclaimed set is already empty is rejected with the
"no more late resources to initialize" diagnostic, never accepted; in
particular every member of the `app9c` family is rejected that way. -/
theorem c9_amended :
    (∀ (app : App) (core : Nat) (i : Init) (more : List (Nat × Init))
        (rest : Option Nat) (initialized : List (String × Nat)),
        i.returns_late_resources = true →
        lateLoop app ((core, i) :: more) rest initialized [] =
          .error (.noMoreLateResources core)) ∧
      (∀ c : Nat, check (app9c c) = .error (.noMoreLateResources c)) := by
  constructor
  · intro app core i more rest initialized h
    simp [lateLoop, h, List.isEmpty]
  · intro c
    rfl

/-- C4 (counterexample): the repository's own `timer_queue` test.  In
`app4t` no unit on a core other than 0 schedules a task living on
core 0, yet core 0 does hold a timer-queue entry (priority 3, as the
test asserts) — refuting the claim's "entry only if some task on a
different core schedules a task on this core"; and the claim's
unconditional formula evaluates to 2 there, not the actual 3. -/
theorem c4_counterexample :
    timer_queues app4t 0 = some ⟨3⟩ ∧
      (∀ x ∈ app4t.schedule_calls,
        ¬ (x.core ≠ 0 ∧ targetCore app4t x.task = some 0)) ∧
      1 + (outboundPriorities app4t 0).foldr max 0 = 2 :=
  ⟨rfl, by decide, rfl⟩

/-- The handler priority over a nonempty set of units is one more than
their maximum priority. -/
theorem foldr_max_map_succ (l : List Nat) (h : l ≠ []) :
    (l.map (· + 1)).foldr max 0 = 1 + l.foldr max 0 := by
  induction l with
  | nil => exact absurd rfl h
  | cons a t ih =>
    cases t with
    | nil => simp [Nat.add_comm]
    | cons b t2 =>
      have ih' := ih (by simp)
      simp only [List.map_cons, List.foldr_cons] at ih' ⊢
      rw [ih', Nat.add_comm 1 (max b (List.foldr max 0 t2)), max_add_add_right,
        Nat.add_comm]

/-- C4 (amended): the timer queue is keyed by the scheduling core — a
core holds an entry exactly when a unit on it schedules a declared
software task; the entry's priority is the maximum of the per-call
contributions (same-core schedulee's priority plus one, cross-core
scheduler's own priority plus one); when every schedule call of the
core targets another core, as in the claim's scenario, this is one
more than the maximum priority among that core's units scheduling
cross-core; and in the scenario `timer_queues[0].priority = 3`,
agreeing with the repository's `timer_queue` test. -/
theorem c4_amended :
    (∀ (app : App) (c : Nat),
        (timer_queues app c).isSome = true ↔
          ∃ x ∈ app.schedule_calls, x.core = c ∧
            (alookup app.software_tasks x.task).isSome = true) ∧
      (∀ (app : App) (c : Nat) (q : TimerQueue), timer_queues app c = some q →
        q.priority = (tqContributions app c).foldr max 0) ∧
      (∀ (app : App) (c p : Nat),
        p ∈ tqContributions app c ↔
          ∃ x ∈ app.schedule_calls, x.core = c ∧
            ∃ t, alookup app.software_tasks x.task = some t ∧
              ((t.core = c ∧ p = t.priority + 1) ∨
                (¬ t.core = c ∧ ∃ q, x.priority = some q ∧ p = q + 1))) ∧
      (∀ (app : App) (c : Nat) (q : TimerQueue), timer_queues app c = some q →
        (∀ x ∈ app.schedule_calls, x.core = c →
          ∀ t, alookup app.software_tasks x.task = some t →
            ¬ t.core = c ∧ ∃ p, x.priority = some p) →
        q.priority = 1 + (outboundPriorities app c).foldr max 0) ∧
      (timer_queues app4 0 = some ⟨3⟩ ∧ timer_queues app4t 0 = some ⟨3⟩ ∧
        1 + (outboundPriorities app4 0).foldr max 0 = 3) := by
  have hpres : ∀ (app : App) (c : Nat),
      (timer_queues app c).isSome = true ↔
        ∃ x ∈ app.schedule_calls, x.core = c ∧
          (alookup app.software_tasks x.task).isSome = true := by
    intro app c
    have hiff : (app.schedule_calls.any fun x =>
        decide (x.core = c) && (alookup app.software_tasks x.task).isSome) = true ↔
        ∃ x ∈ app.schedule_calls, x.core = c ∧
          (alookup app.software_tasks x.task).isSome = true := by
      simp [List.any_eq_true]
    rw [timer_queues, ← hiff]
    by_cases h : (app.schedule_calls.any fun x =>
        decide (x.core = c) && (alookup app.software_tasks x.task).isSome) = true <;>
      simp [h]
  have hprio : ∀ (app : App) (c : Nat) (q : TimerQueue), timer_queues app c = some q →
      q.priority = (tqContributions app c).foldr max 0 := by
    intro app c q h
    rw [timer_queues] at h
    split at h
    · cases h; rfl
    · exact absurd h (by simp)
  have hmem : ∀ (app : App) (c p : Nat),
      p ∈ tqContributions app c ↔
        ∃ x ∈ app.schedule_calls, x.core = c ∧
          ∃ t, alookup app.software_tasks x.task = some t ∧
            ((t.core = c ∧ p = t.priority + 1) ∨
              (¬ t.core = c ∧ ∃ q, x.priority = some q ∧ p = q + 1)) := by
    intro app c p
    simp only [tqContributions, List.mem_filterMap]
    constructor
    · rintro ⟨x, hx, hfx⟩
      by_cases hc : x.core = c
      · rw [if_pos hc] at hfx
        cases hlk : alookup app.software_tasks x.task with
        | none => rw [hlk] at hfx; cases hfx
        | some t =>
          rw [hlk] at hfx
          have hfx' : (if t.core = c then some (t.priority + 1)
              else match x.priority with
                | some q => some (q + 1)
                | none => none) = some p := hfx
          by_cases htc : t.core = c
          · rw [if_pos htc] at hfx'
            injection hfx' with he
            exact ⟨x, hx, hc, t, hlk, .inl ⟨htc, he.symm⟩⟩
          · rw [if_neg htc] at hfx'
            cases hp : x.priority with
            | none => rw [hp] at hfx'; cases hfx'
            | some qq =>
              rw [hp] at hfx'
              injection hfx' with he
              exact ⟨x, hx, hc, t, hlk, .inr ⟨htc, qq, hp, he.symm⟩⟩
      · rw [if_neg hc] at hfx
        cases hfx
    · rintro ⟨x, hx, hc, t, hlk, hcase⟩
      refine ⟨x, hx, ?_⟩
      rw [if_pos hc, hlk]
      show (if t.core = c then some (t.priority + 1)
          else match x.priority with
            | some q => some (q + 1)
            | none => none) = some p
      rcases hcase with ⟨htc, rfl⟩ | ⟨htc, qq, hp, rfl⟩
      · rw [if_pos htc]
      · rw [if_neg htc, hp]
  refine ⟨hpres, hprio, hmem, ?_, rfl, rfl, rfl⟩
  intro app c q h hall
  have hcontrib : tqContributions app c = (outboundPriorities app c).map (· + 1) := by
    rw [outboundPriorities, List.map_filterMap, tqContributions]
    apply List.filterMap_congr
    intro x hx
    by_cases hc : x.core = c
    · cases hlk : alookup app.software_tasks x.task with
      | none =>
        cases hp : x.priority <;> simp [targetCore, hlk, hp, hc]
      | some t =>
        obtain ⟨htc, p, hp⟩ := hall x hx hc t hlk
        simp [targetCore, hlk, hp, htc, hc]
    · cases hlk : alookup app.software_tasks x.task with
      | none => cases hp : x.priority <;> simp [targetCore, hlk, hp, hc]
      | some t => cases hp : x.priority <;> simp [targetCore, hlk, hp, hc]
  have hne : outboundPriorities app c ≠ [] := by
    have hsome : (timer_queues app c).isSome = true := by rw [h]; rfl
    obtain ⟨x, hx, hc, hlk⟩ := (hpres app c).mp hsome
    rw [Option.isSome_iff_exists] at hlk
    obtain ⟨t, hlk⟩ := hlk
    obtain ⟨htc, p, hp⟩ := hall x hx hc t hlk
    have hpm : p ∈ outboundPriorities app c := by
      refine List.mem_filterMap.mpr ⟨x, hx, ?_⟩
      rw [hp]
      have htg : targetCore app x.task = some t.core := by
        simp [targetCore, hlk]
      rw [htg]
      show (if x.core = c ∧ t.core ≠ c then some p else none) = some p
      rw [if_pos ⟨hc, htc⟩]
    exact List.ne_nil_of_mem hpm
  rw [hprio app c q h, hcontrib, foldr_max_map_succ _ hne]

/-- C7: a resource declared `#[shared]` resolves to `Shared` with an
empty core set, whatever its accessors. -/
theorem c7_shared_override (app : App) (r : String) (res : Res)
    (hmem : (r, res) ∈ app.resources ++ app.late_resources) (hsh : res.shared = true) :
    (r, Location.Shared []) ∈ locations app :=
  List.mem_filterMap.mpr ⟨(r, res), hmem, by simp [resolveLocation, hsh]⟩

/-- C7 at the `shared` test's application. -/
theorem c7_witness :
    (("x", ({ ty := "u32", shared := true } : Res)) ∈
        app8.resources ++ app8.late_resources ∧
      ({ ty := "u32", shared := true } : Res).shared = true) ∧
      ("x", Location.Shared []) ∈ locations app8 :=
  ⟨⟨by decide, rfl⟩,
    c7_shared_override app8 "x" { ty := "u32", shared := true } (by decide) rfl⟩

/-- A resource that some unit accesses always resolves to a location. -/
theorem resolveLocation_isSome_of_access (app : App) (r : String) (res : Res)
    (hacc : ∃ x ∈ app.resource_accesses, x.name = r) :
    (resolveLocation app r res).isSome = true := by
  by_cases hsh : res.shared = true
  · simp [resolveLocation, hsh]
  · obtain ⟨x, hx, hxr⟩ := hacc
    rw [resolveLocation]
    simp only [hsh, if_false]
    cases hac : accessorCores app r with
    | nil =>
      have hnone : x.priority = none := by
        cases hp : x.priority with
        | none => rfl
        | some q =>
          have hm : x.core ∈ accessorCores app r := by
            unfold accessorCores
            rw [List.mem_dedup]
            exact List.mem_filterMap.mpr ⟨x, hx, by simp [hxr, hp]⟩
          simp [hac] at hm
      have hm : x.core ∈ initAccessorCores app r := by
        unfold initAccessorCores
        rw [List.mem_dedup]
        exact List.mem_filterMap.mpr ⟨x, hx, by simp [hxr, hnone]⟩
      cases hi : initAccessorCores app r with
      | nil => simp [hi] at hm
      | cons c t => simp [hi]
    | cons c t => cases t <;> simp

/-- C8 (counterexample): in the `shared` test's application the
resource `x` is referenced by no unit, the model validates, and yet
`locations` does hold an entry for `x` (the `#[shared]` override wins
over the unreferenced-resources-are-dropped rule). -/
theorem c8_counterexample :
    check app8 = .ok () ∧ app8.resource_accesses = [] ∧
      locations app8 = [("x", Location.Shared [])] := ⟨rfl, rfl, rfl⟩

/-- C8 (amended): in a validated application an accessed resource
always has an entry in `locations`, and a resource referenced by no
unit and not declared `#[shared]` has none. -/
theorem c8_unused_resources (app : App) (_hok : check app = .ok ()) :
    (∀ (r : String) (res : Res), (r, res) ∈ app.resources ++ app.late_resources →
        (∃ x ∈ app.resource_accesses, x.name = r) →
        ∃ loc, (r, loc) ∈ locations app) ∧
      (∀ r : String, (∀ x ∈ app.resource_accesses, x.name ≠ r) →
        (∀ res : Res, (r, res) ∈ app.resources ++ app.late_resources →
          res.shared = false) →
        ∀ rl ∈ locations app, rl.1 ≠ r) := by
  constructor
  · intro r res hmem hacc
    cases hloc : resolveLocation app r res with
    | none =>
      have := resolveLocation_isSome_of_access app r res hacc
      simp [hloc] at this
    | some loc =>
      exact ⟨loc, List.mem_filterMap.mpr ⟨(r, res), hmem, by simp [hloc]⟩⟩
  · intro r hno hnosh rl hrl
    obtain ⟨⟨n, res⟩, hmem, hf⟩ := List.mem_filterMap.mp hrl
    cases hloc : resolveLocation app n res with
    | none => simp [hloc] at hf
    | some loc =>
      have hrl2 : rl = (n, loc) := by
        rw [hloc] at hf
        simpa using hf.symm
      subst hrl2
      simp only [ne_eq]
      rintro rfl
      have hshf : res.shared = false := hnosh res hmem
      have hnil : accessorCores app n = [] := by
        unfold accessorCores
        rw [List.filterMap_eq_nil_iff.mpr, List.dedup_nil]
        intro x hx
        simp [hno x hx]
      have hnil2 : initAccessorCores app n = [] := by
        unfold initAccessorCores
        rw [List.filterMap_eq_nil_iff.mpr, List.dedup_nil]
        intro x hx
        simp [hno x hx]
      rw [resolveLocation, hshf] at hloc
      simp [hnil, hnil2] at hloc

/-- C8's amended statement at the `initialization_barrier` test's
application, where `x` is accessed from core 1's idle unit. -/
theorem c8_witness :
    check app5 = .ok () ∧
      ((∀ (r : String) (res : Res), (r, res) ∈ app5.resources ++ app5.late_resources →
          (∃ x ∈ app5.resource_accesses, x.name = r) →
          ∃ loc, (r, loc) ∈ locations app5) ∧
        (∀ r : String, (∀ x ∈ app5.resource_accesses, x.name ≠ r) →
          (∀ res : Res, (r, res) ∈ app5.resources ++ app5.late_resources →
            res.shared = false) →
          ∀ rl ∈ locations app5, rl.1 ≠ r)) :=
  ⟨rfl, c8_unused_resources app5 rfl⟩

/-- C6: `send_types[core]` holds the payload types of exactly the
software tasks on `core` spawned or scheduled from a different core,
whatever the priorities involved; nothing reaches it through a
same-core spawn or schedule. -/
theorem c6_send_types (app : App) (_hok : check app = .ok ()) :
    (∀ (c : Nat) (name : String) (t : SoftwareTask),
        alookup app.software_tasks name = some t → t.core = c →
        (∃ x ∈ sendCandidates app, x.task = name ∧ x.core ≠ c) →
        ∀ ty ∈ t.inputs, ty ∈ send_types app c) ∧
      (∀ (c : Nat) (ty : String), ty ∈ send_types app c →
        ∃ x ∈ sendCandidates app, ∃ t : SoftwareTask,
          alookup app.software_tasks x.task = some t ∧ t.core = c ∧ x.core ≠ c ∧
            ty ∈ t.inputs) := by
  constructor
  · rintro c name t hlk hcore ⟨x, hx, htask, hxc⟩ ty hty
    refine List.mem_flatMap.mpr ⟨x, hx, ?_⟩
    rw [htask, hlk]
    simp [hcore, hxc, hty]
  · intro c ty hty
    obtain ⟨x, hx, hmem⟩ := List.mem_flatMap.mp hty
    cases hlk : alookup app.software_tasks x.task with
    | none => rw [hlk] at hmem; simp at hmem
    | some t =>
      rw [hlk] at hmem
      have hmem' : ty ∈ (if t.core = c ∧ x.core ≠ c then t.inputs else []) := hmem
      by_cases hcond : t.core = c ∧ x.core ≠ c
      · rw [if_pos hcond] at hmem'
        exact ⟨x, hx, t, hlk, hcond.1, hcond.2, hmem'⟩
      · rw [if_neg hcond] at hmem'
        simp at hmem'

/-- C6 at the `send_spawn` test's application: `X`, the payload type of
`bar` on core 1 spawned from core 0, lands in `send_types[1]`. -/
theorem c6_witness :
    check app6w = .ok () ∧
      ((∀ (c : Nat) (name : String) (t : SoftwareTask),
          alookup app6w.software_tasks name = some t → t.core = c →
          (∃ x ∈ sendCandidates app6w, x.task = name ∧ x.core ≠ c) →
          ∀ ty ∈ t.inputs, ty ∈ send_types app6w c) ∧
        (∀ (c : Nat) (ty : String), ty ∈ send_types app6w c →
          ∃ x ∈ sendCandidates app6w, ∃ t : SoftwareTask,
            alookup app6w.software_tasks x.task = some t ∧ t.core = c ∧ x.core ≠ c ∧
              ty ∈ t.inputs)) :=
  ⟨rfl, c6_send_types app6w rfl⟩

end Rtic
